import Mathlib

/-!
Verification of the zilt lazy-iterator library (src/src/zilt.ts).

Sequences are modelled by the finite list of elements their producer
(`this.generator`) yields on a fresh traversal.  JavaScript runtime values
that the library manipulates through its dynamic checks (`undefined` from a
`next()` call on an exhausted iterator, the `null` default used as the
absent-initializer sentinel, numbers) are modelled by the `JS` inductive.
Functions that `throw new ZiltError(msg)` are modelled in `Except ZiltError`.
-/

namespace Zilt

/-- Model of the `ZiltError` exception class: it carries only its message. -/
structure ZiltError where
  msg : String
deriving DecidableEq, Repr

/-- JavaScript values flowing through `reduce` / `accumulate` / `count`:
`undef` is `undefined` (the `value` of a `next()` call past the end),
`null` is the literal `null` (the absent-initializer default),
`num` is a number, `nan` is `NaN`, and `val` carries a payload element. -/
inductive JS (α : Type) where
  | undef : JS α
  | null : JS α
  | num : ℤ → JS α
  | nan : JS α
  | val : α → JS α
deriving DecidableEq, Repr

/-- The `initializer === null` test of `reduce` / `accumulate`. -/
def JS.isNull : JS α → Bool
  | .null => true
  | _ => false

/-- JavaScript `acc + 1` as used by `count`'s fold callback.  The accumulator
there is always a number (it starts at `0`); on any non-number JavaScript
would produce `NaN`. -/
def JS.add1 : JS α → JS α
  | .num n => .num (n + 1)
  | _ => .nan

/-- `ZiltIterator.reduce(func, initializer = null)` (src/src/zilt.ts:343).
The body pulls `first = iter.next()`; if `initializer === null && first.done`
it throws; otherwise the accumulator is seeded with
`initializer === null ? first.value : func(initializer, first.value)` and the
rest of the iterator is folded.  On an empty source `first.value` is
`undefined`, so a non-null initializer is combined with `JS.undef`. -/
def reduce (func : JS α → JS α → JS α) (initializer : JS α) (l : List (JS α)) :
    Except ZiltError (JS α) :=
  match l with
  | [] =>
    if initializer.isNull then
      .error ⟨"Reduce of empty iterator with no initial value"⟩
    else
      .ok (func initializer .undef)
  | first :: rest =>
    let acc := if initializer.isNull then first else func initializer first
    .ok (rest.foldl func acc)

/-- A call site of `reduce`: `none` models omitting the optional argument,
which the default parameter `initializer = null` turns into `null`. -/
def reduceCall (func : JS α → JS α → JS α) (initArg : Option (JS α))
    (l : List (JS α)) : Except ZiltError (JS α) :=
  reduce func (initArg.getD .null) l

/-- The running-accumulator stream of `accumulate` after the seed:
`for (const item of previous) { acc = func(acc, item); yield acc; }`. -/
def accumGo (func : JS α → JS α → JS α) (acc : JS α) : List (JS α) → List (JS α)
  | [] => []
  | y :: ys =>
    let a := func acc y
    a :: accumGo func a ys

/-- `ZiltIterator.accumulate(func, initializer = null)` (src/src/zilt.ts:384).
The adapter call itself pulls `first = previous.next()` and throws right
there when `initializer === null && first.done`; only then does it build the
returned iterator, so `.error` is the outcome of the adapter call, not of a
later consumption.  On an empty source with a non-null initializer the
returned stream is the single element `func(initializer, undefined)`. -/
def accumulate (func : JS α → JS α → JS α) (initializer : JS α)
    (l : List (JS α)) : Except ZiltError (List (JS α)) :=
  match l with
  | [] =>
    if initializer.isNull then
      .error ⟨"Reduce of empty iterator with no initial value"⟩
    else
      .ok [func initializer .undef]
  | first :: rest =>
    let acc := if initializer.isNull then first else func initializer first
    .ok (acc :: accumGo func acc rest)

/-- A call site of `accumulate`: `none` models omitting the optional
argument, defaulted to `null`. -/
def accumulateCall (func : JS α → JS α → JS α) (initArg : Option (JS α))
    (l : List (JS α)) : Except ZiltError (List (JS α)) :=
  accumulate func (initArg.getD .null) l

/-- The default predicate of `count`: `() => true`. -/
def countDefaultPred : JS α → Bool := fun _ => true

/-- `ZiltIterator.count(pred = () => true)` (src/src/zilt.ts:420):
`this.reduce((acc, val) => (pred(val) ? acc + 1 : acc), 0)`. -/
def count (pred : JS α → Bool) (l : List (JS α)) : Except ZiltError (JS α) :=
  reduce (fun acc v => if pred v then acc.add1 else acc) (.num 0) l

/-- `count()` with the predicate argument omitted. -/
def countDefault (l : List (JS α)) : Except ZiltError (JS α) :=
  count countDefaultPred l

/-- The loop of `take`: `if (num === 0) break; yield item; num -= 1;`. -/
def takeGo (num : ℤ) : List α → List α
  | [] => []
  | x :: xs => if num = 0 then [] else x :: takeGo (num - 1) xs

/-- `ZiltIterator.take(num)` (src/src/zilt.ts:282): throws on `num < 0`,
otherwise yields elements until `num` hits `0` or the source ends. -/
def take (num : ℤ) (l : List α) : Except ZiltError (List α) :=
  if num < 0 then .error ⟨"Invalid take parameter"⟩ else .ok (takeGo num l)

/-- `ZiltIterator.skip(num)` (src/src/zilt.ts:224): throws on `num < 0`,
otherwise calls `iter.next()` `num` times and yields the rest, i.e. drops
the first `num` elements (dropping past the end leaves the empty stream). -/
def skip (num : ℤ) (l : List α) : Except ZiltError (List α) :=
  if num < 0 then .error ⟨"Invalid skip parameter"⟩ else .ok (l.drop num.toNat)

/-- The minimum of the lengths of a non-empty family of sources (0 for the
empty family); the number of tuples the `zip` loop yields. -/
def minLen : List (List α) → ℕ
  | [] => 0
  | [l] => l.length
  | l :: l2 :: ls => min l.length (minLen (l2 :: ls))

/-- The shared loop of `zip` (src/src/zilt.ts:108-116 and 594-607):
`results = iters.map(it => it.next()); while (results.every(res => !res.done))
yield values; results = iters.map(it => it.next())`.  The iterator family is
never empty here (the free function guards `iterables.length === 0` before
the loop and the method always prepends `this`), so it is split into a first
iterator, pattern-matched to drive the recursion, and the rest.  Pulling
from a list source gives its head (the `headD` is only evaluated when every
list is non-empty, matching `res.value` being used only when no `res.done`
holds); advancing every iterator is `map List.tail`. -/
def zipGo [Inhabited α] : List α → List (List α) → List (List α)
  | [], _ => []
  | x :: xs, rest =>
    if rest.all (fun t => !t.isEmpty) then
      (x :: rest.map (fun t => t.headD default)) :: zipGo xs (rest.map List.tail)
    else []

/-- The free function `zip(...iterables)` (src/src/zilt.ts:101): an empty
argument list returns at once, otherwise the lock-step loop runs. -/
def zip [Inhabited α] (iterables : List (List α)) : List (List α) :=
  match iterables with
  | [] => []
  | l :: rest => zipGo l rest

/-- The method `this.zip(...iterables)` (src/src/zilt.ts:588): the same loop
over `[previous(), ...iterables]`, i.e. with `this` prepended. -/
def zipMethod [Inhabited α] (s : List α) (iterables : List (List α)) :
    List (List α) :=
  zipGo s iterables

/-- Elements as `flatten`'s duck-typed check sees them:
`Symbol.iterator in Object(item)` distinguishes an array (`arr`) from a
non-iterable value (`atom`). -/
inductive JVal (α : Type) where
  | atom : α → JVal α
  | arr : List (JVal α) → JVal α

/-- The recursion of `flatten` (src/src/zilt.ts:446-454):
`for (item of it) { if (item iterable && depth !== maxDepth) yield*
recurse(depth + 1, item); else yield item; }`. -/
def flattenGo (maxDepth : ℕ) : ℕ → List (JVal α) → List (JVal α)
  | _, [] => []
  | depth, .atom a :: xs => .atom a :: flattenGo maxDepth depth xs
  | depth, .arr ys :: xs =>
    (if depth ≠ maxDepth then flattenGo maxDepth (depth + 1) ys
     else [.arr ys]) ++ flattenGo maxDepth depth xs

/-- `ZiltIterator.flatten(maxDepth)` (src/src/zilt.ts:438): validates
`0 <= maxDepth <= 10` eagerly, then runs `recurse(0, this.generator())`.
After the validation the non-negative depth is a natural number. -/
def flatten (maxDepth : ℤ) (l : List (JVal α)) :
    Except ZiltError (List (JVal α)) :=
  if maxDepth < 0 ∨ maxDepth > 10 then
    .error ⟨"Invalid depth for flatten, allowed range is [0, 10]"⟩
  else
    .ok (flattenGo maxDepth.toNat 0 l)

/-- The loop of `chunks(k)` (src/src/zilt.ts:472-487): push each element on
the current chunk, emit the chunk whenever `chunk.length === k` (a JavaScript
`===` between the length and the arbitrary number `k`, hence the cast), and
emit the non-empty remainder at the end. -/
def chunksGo (k : ℤ) (chunk : List α) : List α → List (List α)
  | [] => if chunk.length ≠ 0 then [chunk] else []
  | x :: xs =>
    let c := chunk ++ [x]
    if (c.length : ℤ) = k then c :: chunksGo k [] xs else chunksGo k c xs

/-- `ZiltIterator.chunks(k)` (src/src/zilt.ts:468): no validation of `k`;
the loop starts with an empty chunk. -/
def chunks (k : ℤ) (l : List α) : List (List α) :=
  chunksGo k [] l

/-- The loop of `windows(k)` (src/src/zilt.ts:506-523): push each element on
the sliding buffer, emit it when it reaches length `k` (then slide by one),
and if nothing was ever emitted, emit the partial buffer at the end.  Runs
after validation, so the positive integer `k` is a natural number here. -/
def windowsGo (k : ℕ) : List α → Bool → List α → List (List α)
  | window, yielded, [] => if !yielded then [window] else []
  | window, yielded, x :: xs =>
    let w := window ++ [x]
    if w.length = k then w :: windowsGo k (w.drop 1) true xs
    else windowsGo k w yielded xs

/-- `ZiltIterator.windows(k)` (src/src/zilt.ts:500): throws on `k <= 0`,
otherwise runs the sliding-buffer loop from an empty buffer. -/
def windows (k : ℤ) (l : List α) : Except ZiltError (List (List α)) :=
  if k ≤ 0 then .error ⟨"Invalid window length"⟩
  else .ok (windowsGo k.toNat [] false l)

/-- The post-exhaustion phase of `skipWhile`'s `while (pred(value, index))`
loop: once the source iterator is exhausted, `iter.next().value` is
`undefined` (modelled `none`) on every pull, so the loop keeps testing
`pred(undefined, index)` with a growing index.  When the predicate fails the
loop exits, the `undefined` in hand is yielded, and the rest of the iterator
(nothing) follows: the stream is `[none]`.  The loop does not terminate
within `fuel` iterations ⇒ result `none` (the generator spins). -/
def swExhaust (pred : Option α → ℕ → Bool) : ℕ → ℕ → Option (List (Option α))
  | 0, _ => none
  | fuel + 1, i =>
    if pred none i then swExhaust pred fuel (i + 1) else some [none]

/-- The in-source phase of `skipWhile` (src/src/zilt.ts:255-269): pull a
value, and while `pred(value, index)` holds pull again with the index
running over dropped elements only; on the first failure yield that value
and then the remainder of the iterator unchanged. -/
def swGo (pred : Option α → ℕ → Bool) (fuel : ℕ) :
    ℕ → List α → Option (List (Option α))
  | i, [] => swExhaust pred fuel i
  | i, x :: xs =>
    if pred (some x) i then swGo pred fuel (i + 1) xs
    else some (some x :: xs.map some)

/-- `ZiltIterator.skipWhile(pred)` (src/src/zilt.ts:251): the produced
stream over JavaScript values (`none` = `undefined`).  `fuel` bounds the
post-exhaustion spin of the `while` loop; every claim below is settled at a
fuel large enough for the loop to settle. -/
def skipWhile (pred : Option α → ℕ → Bool) (fuel : ℕ) (l : List α) :
    Option (List (Option α)) :=
  swGo pred fuel 0 l

/-- The post-exhaustion phase of `takeWhile`'s loop (src/src/zilt.ts:315):
while `pred(undefined, index)` holds the generator yields `undefined` and
pulls `undefined` again; when it fails the generator ends. -/
def twExhaust (pred : Option α → ℕ → Bool) : ℕ → ℕ → Option (List (Option α))
  | 0, _ => none
  | fuel + 1, i =>
    if pred none i then (twExhaust pred fuel (i + 1)).map (fun r => none :: r)
    else some []

/-- The in-source phase of `takeWhile` (src/src/zilt.ts:310-320): yield
values while the predicate holds of them, stop at the first failure. -/
def twGo (pred : Option α → ℕ → Bool) (fuel : ℕ) :
    ℕ → List α → Option (List (Option α))
  | i, [] => twExhaust pred fuel i
  | i, x :: xs =>
    if pred (some x) i then (twGo pred fuel (i + 1) xs).map (fun r => some x :: r)
    else some []

/-- The stream that `takeWhile(pred)` installs as the receiver's new
producer (src/src/zilt.ts:310: `this.generator = function* () {...}`). -/
def takeWhileStream (pred : Option α → ℕ → Bool) (fuel : ℕ) (l : List α) :
    Option (List (Option α)) :=
  twGo pred fuel 0 l

/-- JavaScript numbers as `min`/`max` compare them (no `NaN` arises in the
claims): `negInf` is `-Infinity`, `posInf` is `Infinity`. -/
inductive JNum where
  | negInf : JNum
  | fin : ℤ → JNum
  | posInf : JNum
deriving DecidableEq, Repr

/-- JavaScript `a < b` on these numbers: strict, nothing is below
`-Infinity` and nothing is above `Infinity`. -/
def JNum.lt : JNum → JNum → Bool
  | _, .negInf => false
  | .posInf, _ => false
  | .negInf, _ => true
  | .fin a, .fin b => decide (a < b)
  | .fin _, .posInf => true

/-- JavaScript `a > b` on non-NaN numbers is `b < a`. -/
def JNum.gt (a b : JNum) : Bool := JNum.lt b a

/-- The fold of `min(getKey)` (src/src/zilt.ts:925-939): `minKey` starts at
`Infinity` and `minElement` at `undefined`; each element's key replaces the
running pair only when `key < minKey` holds strictly. -/
def minGo (getKey : α → JNum) : JNum → Option α → List α → Option α
  | _, best, [] => best
  | minKey, best, x :: xs =>
    let key := getKey x
    if key.lt minKey then minGo getKey key (some x) xs
    else minGo getKey minKey best xs

/-- `ZiltIterator.min(getKey)`: returns `minElement`, still `undefined`
(`none`) when no key ever went strictly below the `Infinity` sentinel. -/
def min (getKey : α → JNum) (l : List α) : Option α :=
  minGo getKey .posInf none l

/-- The fold of `max(getKey)` (src/src/zilt.ts:948-962), symmetric to `min`
with the `-Infinity` sentinel and `key > maxKey`. -/
def maxGo (getKey : α → JNum) : JNum → Option α → List α → Option α
  | _, best, [] => best
  | maxKey, best, x :: xs =>
    let key := getKey x
    if key.gt maxKey then maxGo getKey key (some x) xs
    else maxGo getKey maxKey best xs

/-- `ZiltIterator.max(getKey)`: returns `maxElement`, still `undefined`
(`none`) when no key ever went strictly above the `-Infinity` sentinel. -/
def max (getKey : α → JNum) (l : List α) : Option α :=
  maxGo getKey .negInf none l

/-- The loop of `map` (src/src/zilt.ts:178-185): the index increments after
every yielded (hence every) element. -/
def mapGo (f : α → ℕ → β) : ℕ → List α → List β
  | _, [] => []
  | i, x :: xs => f x i :: mapGo f (i + 1) xs

/-- `ZiltIterator.map(func)`: the produced stream. -/
def map (f : α → ℕ → β) (l : List α) : List β :=
  mapGo f 0 l

/-- The loop of `filter` (src/src/zilt.ts:202-211): the index increments
only for elements that pass the predicate (the quirk: the predicate sees the
count of previously yielded elements, not the source position). -/
def filterGo (pred : α → ℕ → Bool) : ℕ → List α → List α
  | _, [] => []
  | i, x :: xs =>
    if pred x i then x :: filterGo pred (i + 1) xs else filterGo pred i xs

/-- `ZiltIterator.filter(func)`: the produced stream. -/
def filter (pred : α → ℕ → Bool) (l : List α) : List α :=
  filterGo pred 0 l

/-- The method `this.chain(...iterables)` (src/src/zilt.ts:816): yields
`this`, then each iterable in order. -/
def chain (s : List α) (iterables : List (List α)) : List α :=
  s ++ iterables.flatten

/-- The free function `range` (src/src/zilt.ts:53-69) restricted to integer
bounds, both given: `step = start < end ? 1 : -1`, then
`for (i = start; i !== end; i += step) yield i` — ascending from `start` up
to `end` excluded, or descending from `start` down to `end` excluded. -/
def range (start stop : ℤ) : List ℤ :=
  if start < stop then (List.range (stop - start).toNat).map (fun j => start + j)
  else (List.range (start - stop).toNat).map (fun j => start - j)

/-- `ZiltIterator.cycle(count)` (src/src/zilt.ts:851) with an explicit
finite count: throws on `count < 0`; `count === 0` yields nothing; otherwise
the first pass buffers and yields the source, and `while (--count)` replays
the buffer, for `count` passes in total.  (The omitted-argument form
defaults `count` to `Infinity`, an infinite stream no claim needs.) -/
def cycle (count : ℤ) (l : List α) : Except ZiltError (List α) :=
  if count < 0 then .error ⟨"Invalid count parameter"⟩
  else .ok (List.replicate count.toNat l).flatten

/-- `ZiltIterator.stretch(count)` (src/src/zilt.ts:884): throws on
`count < 0`; yields each element once per value of `range(0, count)`. -/
def stretch (count : ℤ) (l : List α) : Except ZiltError (List α) :=
  if count < 0 then .error ⟨"Invalid stretch parameter"⟩
  else .ok (l.map (fun x => (range 0 count).map (fun _ => x))).flatten

/-- `ZiltIterator.enumerate()` (src/src/zilt.ts:536): pairs each element
with a zero-based counter, element first. -/
def enumGo : ℕ → List α → List (α × ℕ)
  | _, [] => []
  | i, x :: xs => (x, i) :: enumGo (i + 1) xs

/-- `ZiltIterator.enumerate()`: the produced stream. -/
def enumerate (l : List α) : List (α × ℕ) :=
  enumGo 0 l

/-- The loop of `step` (src/src/zilt.ts:566-575) after validation: yields
the elements whose running index satisfies `index % step === 0`. -/
def stepGo (n : ℕ) : ℕ → List α → List α
  | _, [] => []
  | i, x :: xs =>
    if i % n = 0 then x :: stepGo n (i + 1) xs else stepGo n (i + 1) xs

/-- `ZiltIterator.step(step)` (src/src/zilt.ts:560): throws on `step <= 0`. -/
def step (n : ℤ) (l : List α) : Except ZiltError (List α) :=
  if n ≤ 0 then .error ⟨"Invalid step"⟩ else .ok (stepGo n.toNat 0 l)

/-- `ZiltIterator.nest(iterable)` (src/src/zilt.ts:1070-1088): materializes
the iterable, then for each element of `this` pairs it with every nested
value in row-major order. -/
def nest (s : List α) (iterable : List β) : List (α × β) :=
  (s.map (fun i => iterable.map (fun j => (i, j)))).flatten

/-- `ZiltIterator._nestRange(start, end)` (src/src/zilt.ts:1091): the
numeric-argument form of `nest`, pairing with a fresh `range(start, end)`
per element. -/
def nestRange (s : List α) (start stop : ℤ) : List (α × ℤ) :=
  (s.map (fun i => (range start stop).map (fun j => (i, j)))).flatten

/-- The loop of `uniqueBy` (src/src/zilt.ts:990-999): yield an element and
record its key unless the key was already seen (host set membership,
modelled by decidable equality of keys). -/
def uniqueByGo [DecidableEq κ] (getKey : α → κ) (seen : List κ) :
    List α → List α
  | [] => []
  | x :: xs =>
    if getKey x ∈ seen then uniqueByGo getKey seen xs
    else x :: uniqueByGo getKey (getKey x :: seen) xs

/-- `ZiltIterator.uniqueBy(getKey)`: the produced stream. -/
def uniqueBy [DecidableEq κ] (getKey : α → κ) (l : List α) : List α :=
  uniqueByGo getKey [] l

/-- `ZiltIterator.unique()` (src/src/zilt.ts:973): `uniqueBy` with the
identity key. -/
def unique [DecidableEq α] (l : List α) : List α :=
  uniqueBy (fun e => e) l

/-- `ZiltIterator.inspect(func)` (src/src/zilt.ts:1016): calls `func` on
each element for its side effect (not modelled) and yields the element
unchanged, so the produced stream is the source stream. -/
def inspect (func : α → β) (l : List α) : List α :=
  l

/-- `ZiltIterator.slice(start, end)` (src/src/zilt.ts:1038): validates the
range, then returns `this.skip(start).take(end - start)`. -/
def slice (start stop : ℤ) (l : List α) : Except ZiltError (List α) :=
  if start < 0 ∨ stop < 0 ∨ start > stop then .error ⟨"Invalid slice range"⟩
  else
    match skip start l with
    | .error e => .error e
    | .ok l2 => take (stop - start) l2

/-- A method call on a `ZiltIterator` receiver, as the mutation claims see
it: `ret` is the returned object's stream, `recv` is the stream the
receiver's `this.generator` produces after the call, and `retIsRecv` states
whether the method returned the receiver itself (`return this`) rather than
a fresh `ZiltIterator` (`return iter(...)`). -/
structure MCall (ρ : Type) (σ : Type) where
  ret : ρ
  recv : σ
  retIsRecv : Bool

/-- `map` as a method call: builds a new iterator over the captured
producer, never assigns `this.generator`, returns the new object. -/
def map_method (f : α → ℕ → β) (s : List α) : MCall (List β) (List α) :=
  ⟨map f s, s, false⟩

/-- `filter` as a method call (same shape as `map`). -/
def filter_method (pred : α → ℕ → Bool) (s : List α) :
    MCall (List α) (List α) :=
  ⟨filter pred s, s, false⟩

/-- `skip` as a method call: may throw on its argument; never touches the
receiver either way. -/
def skip_method (num : ℤ) (s : List α) :
    MCall (Except ZiltError (List α)) (List α) :=
  ⟨skip num s, s, false⟩

/-- `take` as a method call. -/
def take_method (num : ℤ) (s : List α) :
    MCall (Except ZiltError (List α)) (List α) :=
  ⟨take num s, s, false⟩

/-- `chain` as a method call. -/
def chain_method (s : List α) (iterables : List (List α)) :
    MCall (List α) (List α) :=
  ⟨chain s iterables, s, false⟩

/-- `zip` as a method call. -/
def zip_method [Inhabited α] (s : List α) (iterables : List (List α)) :
    MCall (List (List α)) (List α) :=
  ⟨zipMethod s iterables, s, false⟩

/-- `cycle` as a method call. -/
def cycle_method (count : ℤ) (s : List α) :
    MCall (Except ZiltError (List α)) (List α) :=
  ⟨cycle count s, s, false⟩

/-- `stretch` as a method call. -/
def stretch_method (count : ℤ) (s : List α) :
    MCall (Except ZiltError (List α)) (List α) :=
  ⟨stretch count s, s, false⟩

/-- `flatten` as a method call. -/
def flatten_method (maxDepth : ℤ) (s : List (JVal α)) :
    MCall (Except ZiltError (List (JVal α))) (List (JVal α)) :=
  ⟨flatten maxDepth s, s, false⟩

/-- `chunks` as a method call. -/
def chunks_method (k : ℤ) (s : List α) :
    MCall (List (List α)) (List α) :=
  ⟨chunks k s, s, false⟩

/-- `windows` as a method call. -/
def windows_method (k : ℤ) (s : List α) :
    MCall (Except ZiltError (List (List α))) (List α) :=
  ⟨windows k s, s, false⟩

/-- `nest` (iterable form) as a method call. -/
def nest_method (s : List α) (iterable : List β) :
    MCall (List (α × β)) (List α) :=
  ⟨nest s iterable, s, false⟩

/-- `nest` (numeric range form) as a method call. -/
def nestRange_method (s : List α) (start stop : ℤ) :
    MCall (List (α × ℤ)) (List α) :=
  ⟨nestRange s start stop, s, false⟩

/-- `unique` as a method call (`uniqueBy` with the identity key, which
builds and returns a fresh iterator). -/
def unique_method [DecidableEq α] (s : List α) : MCall (List α) (List α) :=
  ⟨unique s, s, false⟩

/-- `inspect` as a method call. -/
def inspect_method (func : α → β) (s : List α) : MCall (List α) (List α) :=
  ⟨inspect func s, s, false⟩

/-- `slice` as a method call: `skip` and `take` are called on fresh
iterators, never on the receiver's generator field. -/
def slice_method (start stop : ℤ) (s : List α) :
    MCall (Except ZiltError (List α)) (List α) :=
  ⟨slice start stop s, s, false⟩

/-- `step` as a method call. -/
def step_method (n : ℤ) (s : List α) :
    MCall (Except ZiltError (List α)) (List α) :=
  ⟨step n s, s, false⟩

/-- `accumulate` as a method call: it eagerly pulls the first element from a
fresh traversal of the receiver and may throw, but it never assigns
`this.generator` and returns a fresh iterator on success. -/
def accumulate_method (func : JS γ → JS γ → JS γ) (initializer : JS γ)
    (s : List (JS γ)) :
    MCall (Except ZiltError (List (JS γ))) (List (JS γ)) :=
  ⟨accumulate func initializer s, s, false⟩

/-- `enumerate` as a method call. -/
def enumerate_method (s : List α) : MCall (List (α × ℕ)) (List α) :=
  ⟨enumerate s, s, false⟩

/-- `skipWhile` as a method call (not in the claim's list, but it also
returns a fresh iterator without touching the receiver). -/
def skipWhile_method (pred : Option α → ℕ → Bool) (fuel : ℕ) (s : List α) :
    MCall (Option (List (Option α))) (List α) :=
  ⟨skipWhile pred fuel s, s, false⟩

/-- `takeWhile` as a method call (src/src/zilt.ts:307-323): the sole
adapter that assigns `this.generator` (to the takeWhile stream over the old
producer) and ends with `return this` — the returned object is the mutated
receiver. -/
def takeWhile_method (pred : Option α → ℕ → Bool) (fuel : ℕ) (s : List α) :
    MCall (Option (List (Option α))) (Option (List (Option α))) :=
  ⟨takeWhileStream pred fuel s, takeWhileStream pred fuel s, true⟩

end Zilt

namespace Zilt

/-- C1 (code bug evaluation).  `reduce(f, init)` on an empty sequence does
not return `init` untouched: the code computes `func(initializer, first.value)`
with `first.value = undefined`, applying `f` once.  With `f = (a, b) => b`
and `init = 5` the call returns `undefined`, not `5`. -/
theorem reduce_empty_with_init_applies_f :
    reduce (fun _ v => v) (JS.num 5) ([] : List (JS Unit)) = .ok .undef ∧
      (JS.undef : JS Unit) ≠ .num 5 := by
  constructor
  · rfl
  · decide

/-- C3 (counterexample).  The claim says the adapter call
`accumulate(f)` on an empty no-initializer sequence returns without error,
deferring the EmptyReduction error to first consumption.  In the code the
call itself pulls `previous.next()` and throws immediately: at the concrete
input (empty sequence, `f = (a, b) => a`), the adapter call's outcome is not
a success. -/
theorem accumulate_empty_call_not_ok :
    (accumulateCall (fun a _ => a) none ([] : List (JS Unit))).isOk = false := by
  rfl

/-- C3 (amended).  `accumulate(f)` without an initializer on an empty
sequence raises the EmptyReduction error eagerly, at the adapter call itself
(which pulls the first element of the source); the error is not deferred to
the first consumption of the returned sequence.  On a non-empty source the
call returns the accumulator stream without error. -/
theorem accumulate_empty_call_throws (α : Type) (func : JS α → JS α → JS α) :
    accumulateCall func none ([] : List (JS α)) =
      .error ⟨"Reduce of empty iterator with no initial value"⟩ ∧
      ∀ (x : JS α) (xs : List (JS α)),
        accumulateCall func none (x :: xs) = .ok (x :: accumGo func x xs) := by
  exact ⟨rfl, fun x xs => rfl⟩

/-- C9.  Passing `null` explicitly as the initializer of `reduce` or
`accumulate` is indistinguishable from omitting it: the default parameter is
`null` and every branch tests `initializer === null`.  Consequently
`reduce(f, null)` on an empty sequence throws EmptyReduction rather than
returning `null`, and `null` never acts as a genuine seed: on a non-empty
sequence the fold is seeded from the first element, never from `null`. -/
theorem null_initializer_is_absent (α : Type) (func : JS α → JS α → JS α) :
    (∀ l : List (JS α), reduceCall func (some .null) l = reduceCall func none l) ∧
      (∀ l : List (JS α),
        accumulateCall func (some .null) l = accumulateCall func none l) ∧
      reduceCall func (some .null) ([] : List (JS α)) =
        .error ⟨"Reduce of empty iterator with no initial value"⟩ ∧
      ∀ (x : JS α) (xs : List (JS α)),
        reduceCall func (some .null) (x :: xs) = .ok (xs.foldl func x) := by
  exact ⟨fun l => rfl, fun l => rfl, rfl, fun x xs => rfl⟩

theorem minLen_le (ls : List (List α)) (l : List α) (hl : l ∈ ls) :
    minLen ls ≤ l.length := by
  induction ls with
  | nil => cases hl
  | cons t ts ih =>
    cases ts with
    | nil =>
      rcases List.mem_cons.mp hl with rfl | h
      · exact le_refl _
      · cases h
    | cons t2 ts2 =>
      rcases List.mem_cons.mp hl with rfl | h
      · exact min_le_left _ _
      · exact le_trans (min_le_right _ _) (ih h)

theorem minLen_spec (ls : List (List α)) (hne : ls ≠ []) :
    ∃ l ∈ ls, minLen ls = l.length := by
  induction ls with
  | nil => exact absurd rfl hne
  | cons t ts ih =>
    cases ts with
    | nil => exact ⟨t, by simp, rfl⟩
    | cons t2 ts2 =>
      rcases le_total t.length (minLen (t2 :: ts2)) with h | h
      · exact ⟨t, by simp, min_eq_left h⟩
      · obtain ⟨l, hl, he⟩ := ih (by simp)
        exact ⟨l, by simp [hl], by rw [minLen, min_eq_right h, he]⟩

theorem minLen_tail (ts : List (List α)) (hne : ts ≠ [])
    (hall : ∀ t ∈ ts, t ≠ []) :
    minLen (ts.map List.tail) + 1 = minLen ts := by
  induction ts with
  | nil => exact absurd rfl hne
  | cons t rs ih =>
    have ht : t ≠ [] := hall t (by simp)
    have htl : t.length - 1 + 1 = t.length := by
      have := List.length_pos.mpr ht
      omega
    cases rs with
    | nil => simpa [minLen, List.length_tail] using htl
    | cons t2 rs2 =>
      have h2 := ih (by simp) (fun u hu => hall u (by simp [hu]))
      simp only [List.map_cons, minLen, List.length_tail] at h2 ⊢
      omega

theorem headD_eq_getD_zero [Inhabited α] (l : List α) :
    l.headD default = l.getD 0 default := by
  cases l <;> rfl

theorem getD_succ_tail [Inhabited α] (l : List α) (i : ℕ) :
    l.getD (i + 1) default = l.tail.getD i default := by
  cases l <;> rfl

theorem zipGo_eq [Inhabited α] (l : List α) (rest : List (List α)) :
    zipGo l rest =
      (List.range (minLen (l :: rest))).map
        (fun i => (l :: rest).map (fun t => t.getD i default)) := by
  induction l generalizing rest with
  | nil =>
    have h0 : minLen ([] :: rest) = 0 :=
      Nat.le_zero.mp (minLen_le ([] :: rest) [] (by simp))
    simp [zipGo, h0]
  | cons x xs ih =>
    rw [zipGo]
    by_cases hall : rest.all (fun t => !t.isEmpty)
    · rw [if_pos hall]
      have hne : ∀ t ∈ rest, t ≠ [] := by
        intro t ht
        have := List.all_eq_true.mp hall t ht
        simpa [List.isEmpty_iff] using this
      have hmin : minLen (xs :: rest.map List.tail) + 1 = minLen ((x :: xs) :: rest) := by
        have := minLen_tail ((x :: xs) :: rest) (by simp)
          (by
            intro t ht
            rcases List.mem_cons.mp ht with rfl | h
            · simp
            · exact hne t h)
        simpa using this
      rw [ih (rest.map List.tail), ← hmin, List.range_succ_eq_map]
      simp only [List.map_cons, List.map_map]
      congr 1
      · simp only [List.getD_cons_zero]
        congr 1
        exact List.map_congr_left (fun t _ => headD_eq_getD_zero t)
      · apply List.map_congr_left
        intro i _
        simp only [Function.comp_apply, List.map_cons, List.map_map,
          List.getD_cons_succ]
        congr 1
        exact List.map_congr_left
          (fun t _ => by
            simp only [Function.comp_apply]
            exact (getD_succ_tail t i).symm)
    · rw [if_neg hall]
      obtain ⟨t, ht, hemp⟩ : ∃ t ∈ rest, t = [] := by
        by_contra hc
        push_neg at hc
        exact hall (List.all_eq_true.mpr (fun t ht => by
          simpa [List.isEmpty_iff] using hc t ht))
      have h0 : minLen ((x :: xs) :: rest) = 0 := by
        have := minLen_le ((x :: xs) :: rest) t (by simp [ht])
        rw [hemp] at this
        simpa using this
      simp [h0]

/-- C5.  `zip` (free function and method form) yields exactly
`min(lengths of inputs)` tuples, the i-th tuple holding the i-th element of
each input in argument order (the method prepends `this` as the first
component), and `zip()` on an empty argument list yields the empty
sequence.  `minLen` is the minimum of the input lengths: it is a lower
bound of every input's length and is attained by some input. -/
theorem zip_shortest (α : Type) [Inhabited α] :
    zip ([] : List (List α)) = [] ∧
      (∀ l : List α, ∀ rest : List (List α),
        zip (l :: rest) =
          (List.range (minLen (l :: rest))).map
            (fun i => (l :: rest).map (fun t => t.getD i default))) ∧
      (∀ (s : List α) (others : List (List α)),
        zipMethod s others = zip (s :: others)) ∧
      (∀ (ls : List (List α)) (l : List α), l ∈ ls → minLen ls ≤ l.length) ∧
      (∀ ls : List (List α), ls ≠ [] → ∃ l ∈ ls, minLen ls = l.length) := by
  refine ⟨rfl, fun l rest => zipGo_eq l rest, fun s others => rfl,
    fun ls l hl => minLen_le ls l hl, fun ls h => minLen_spec ls h⟩

/-- C5 witness: the theorem applied at `zip([0,1],[6,7,8,9],[21,22,23])`,
whose value is `[[0,6,21],[1,7,22]]`. -/
theorem zip_shortest_witness :
    zip [[(0 : ℤ), 1], [6, 7, 8, 9], [21, 22, 23]] = [[0, 6, 21], [1, 7, 22]] ∧
      ([[(0 : ℤ), 1], [6, 7, 8, 9], [21, 22, 23]] : List (List ℤ)) ≠ [] ∧
      ∃ l ∈ [[(0 : ℤ), 1], [6, 7, 8, 9], [21, 22, 23]],
        minLen [[(0 : ℤ), 1], [6, 7, 8, 9], [21, 22, 23]] = l.length := by
  refine ⟨?_, by decide, (zip_shortest ℤ).2.2.2.2 _ (by decide)⟩
  rw [(zip_shortest ℤ).2.1 [0, 1] [[6, 7, 8, 9], [21, 22, 23]]]
  decide

theorem flattenGo_at_max (m : ℕ) (l : List (JVal α)) : flattenGo m m l = l := by
  induction l with
  | nil => simp [flattenGo]
  | cons x xs ih =>
    cases x with
    | atom a => simp [flattenGo, ih]
    | arr ys => simp [flattenGo, ih]

theorem flattenGo_one_arr (cs : List (List (JVal α))) :
    flattenGo 1 0 (cs.map JVal.arr) = cs.flatten := by
  induction cs with
  | nil => simp [flattenGo]
  | cons c cs ih =>
    simp [flattenGo, ih, flattenGo_at_max 1 c]

theorem chunksGo_join (k : ℤ) :
    ∀ (xs chunk : List α), (chunksGo k chunk xs).flatten = chunk ++ xs := by
  intro xs
  induction xs with
  | nil =>
    intro chunk
    by_cases h : chunk.length ≠ 0 <;> simp_all [chunksGo]
  | cons x xs ih =>
    intro chunk
    simp only [chunksGo]
    by_cases h : ((chunk ++ [x]).length : ℤ) = k
    · rw [if_pos h]
      simp [ih]
    · rw [if_neg h]
      simp [ih]

theorem chunksGo_mem (k : ℤ) (hk : 1 ≤ k) :
    ∀ (xs chunk : List α), (chunk.length : ℤ) < k →
      ∀ c ∈ chunksGo k chunk xs, c ≠ [] ∧ (c.length : ℤ) ≤ k := by
  intro xs
  induction xs with
  | nil =>
    intro chunk hlt c hc
    rw [chunksGo] at hc
    by_cases h : chunk.length ≠ 0
    · rw [if_pos h] at hc
      rcases List.mem_singleton.mp hc with rfl
      exact ⟨fun he => h (by simp [he]), le_of_lt hlt⟩
    · rw [if_neg h] at hc
      cases hc
  | cons x xs ih =>
    intro chunk hlt c hc
    rw [chunksGo] at hc
    by_cases h : ((chunk ++ [x]).length : ℤ) = k
    · rw [if_pos h] at hc
      rcases List.mem_cons.mp hc with rfl | hc
      · refine ⟨fun he => ?_, le_of_eq h⟩
        rw [he] at h
        simp at h
        omega
      · exact ih [] (by simpa using hk) c hc
    · rw [if_neg h] at hc
      refine ih (chunk ++ [x]) ?_ c hc
      simp only [List.length_append, List.length_singleton] at h ⊢
      push_cast at h ⊢
      omega

theorem chunksGo_dropLast (k : ℤ) (hk : 1 ≤ k) :
    ∀ (xs chunk : List α), (chunk.length : ℤ) < k →
      ∀ c ∈ (chunksGo k chunk xs).dropLast, (c.length : ℤ) = k := by
  intro xs
  induction xs with
  | nil =>
    intro chunk _ c hc
    rw [chunksGo] at hc
    by_cases h : chunk.length ≠ 0 <;> simp [h] at hc
  | cons x xs ih =>
    intro chunk hlt c hc
    rw [chunksGo] at hc
    by_cases h : ((chunk ++ [x]).length : ℤ) = k
    · rw [if_pos h] at hc
      rcases he : chunksGo k ([] : List α) xs with _ | ⟨y, ys⟩
      · rw [he] at hc
        cases hc
      · rw [he, List.dropLast_cons₂] at hc
        rcases List.mem_cons.mp hc with rfl | hc
        · exact h
        · refine ih [] (by simpa using hk) c ?_
          rw [he]
          exact hc
    · rw [if_neg h] at hc
      refine ih (chunk ++ [x]) ?_ c hc
      simp only [List.length_append, List.length_singleton] at h ⊢
      push_cast at h ⊢
      omega

/-- C6.  For every `k ≥ 1`, `S.chunks(k).flatten(1).collect()` rebuilds
`S.collect()`: flattening the chunk arrays one level is their concatenation
and the chunks concatenate to `S`.  Moreover every chunk except the final
one has exactly `k` elements, every chunk is non-empty with at most `k`
elements, and the empty source yields zero chunks (not one empty chunk). -/
theorem chunks_flatten_reconstructs (α : Type) (k : ℤ) (S : List (JVal α))
    (hk : 1 ≤ k) :
    flatten 1 ((chunks k S).map JVal.arr) = .ok S ∧
      (∀ c ∈ (chunks k S).dropLast, (c.length : ℤ) = k) ∧
      (∀ c ∈ chunks k S, c ≠ [] ∧ (c.length : ℤ) ≤ k) ∧
      chunks k ([] : List (JVal α)) = [] := by
  refine ⟨?_, ?_, ?_, rfl⟩
  · rw [flatten, if_neg (by omega)]
    simp only [Int.toNat_one]
    rw [flattenGo_one_arr, chunks, chunksGo_join]
    rfl
  · exact chunksGo_dropLast k hk S [] (by simpa using hk)
  · exact chunksGo_mem k hk S [] (by simpa using hk)

/-- C6 witness: the theorem applied at `k = 2` over the five-atom source;
`chunks 2` there is `[[0,1],[2,3],[4]]` and flattening one level rebuilds
the source. -/
theorem chunks_flatten_reconstructs_witness :
    (1 : ℤ) ≤ 2 ∧
      flatten 1
          ((chunks 2 [JVal.atom (0 : ℤ), .atom 1, .atom 2, .atom 3, .atom 4]).map
            JVal.arr) =
        .ok [JVal.atom (0 : ℤ), .atom 1, .atom 2, .atom 3, .atom 4] :=
  ⟨by decide,
    (chunks_flatten_reconstructs ℤ 2
        [JVal.atom (0 : ℤ), .atom 1, .atom 2, .atom 3, .atom 4] (by decide)).1⟩

theorem windowsGo_full (k : ℕ) (hk : 1 ≤ k) :
    ∀ (l w : List α) (yielded : Bool), w.length < k → k ≤ w.length + l.length →
      windowsGo k w yielded l =
        (List.range (w.length + l.length - k + 1)).map
          (fun i => ((w ++ l).drop i).take k) := by
  intro l
  induction l with
  | nil =>
    intro w yielded hw hkle
    simp only [List.length_nil, Nat.add_zero] at hkle
    omega
  | cons x xs ih =>
    intro w yielded hw hkle
    simp only [windowsGo]
    by_cases h : (w ++ [x]).length = k
    · rw [if_pos h]
      have hwl : w.length + 1 = k := by simpa using h
      have htake : (w ++ [x]).take k = w ++ [x] := by
        rw [← h]
        exact List.take_length _
      cases xs with
      | nil =>
        simp only [windowsGo, Bool.not_true, List.length_cons, List.length_nil]
        rw [show w.length + (0 + 1) - k + 1 = 1 from by omega]
        simp [List.range_succ, htake]
      | cons y ys =>
        have hd1 : ((w ++ [x]).drop 1).length = k - 1 := by
          simp [List.length_drop, h]
        have hlen2 : k ≤ ((w ++ [x]).drop 1).length + (y :: ys).length := by
          simp only [hd1, List.length_cons]
          omega
        rw [ih ((w ++ [x]).drop 1) true (by omega) hlen2]
        have hWR : w ++ x :: y :: ys = (w ++ [x]) ++ (y :: ys) := by
          simp
        have hdrop1 : ((w ++ [x]) ++ (y :: ys)).drop 1 =
            ((w ++ [x]).drop 1) ++ (y :: ys) :=
          List.drop_append_of_le_length (by simp)
        rw [hd1,
          show k - 1 + (y :: ys).length - k + 1 = ys.length + 1 from by
            simp only [List.length_cons]; omega,
          show w.length + (x :: y :: ys).length - k + 1 = ys.length + 1 + 1
            from by simp only [List.length_cons]; omega,
          hWR]
        conv_rhs => rw [List.range_succ_eq_map]
        rw [List.map_cons, List.map_map]
        congr 1
        · rw [List.drop_zero,
            List.take_append_of_le_length (le_of_eq h.symm), htake]
        · apply List.map_congr_left
          intro i _
          simp only [Function.comp_apply]
          rw [← hdrop1, List.drop_drop]
          congr 2
          omega
    · rw [if_neg h]
      have hxl : (w ++ [x]).length = w.length + 1 := by simp
      rw [ih (w ++ [x]) yielded (by omega)
        (by simp only [hxl, List.length_cons] at hkle ⊢; omega)]
      have hWR : w ++ x :: xs = (w ++ [x]) ++ xs := by simp
      rw [hWR, hxl, List.length_cons,
        show w.length + 1 + xs.length = w.length + (xs.length + 1) from by omega]

theorem windowsGo_short (k : ℕ) :
    ∀ (l w : List α), w.length + l.length < k →
      windowsGo k w false l = [w ++ l] := by
  intro l
  induction l with
  | nil =>
    intro w _
    simp [windowsGo]
  | cons x xs ih =>
    intro w hlt
    simp only [List.length_cons] at hlt
    simp only [windowsGo]
    rw [if_neg (by simp; omega)]
    rw [ih (w ++ [x]) (by simp; omega)]
    simp

/-- C8.  For `k ≥ 1`: when the source has at least `k` elements,
`windows(k)` yields exactly the `n − k + 1` contiguous `k`-length
subsequences in order; when the source is shorter than `k` it yields exactly
one window holding all available elements; and `windows(k)` for `k ≤ 0`
throws the invalid-window-length error. -/
theorem windows_char (α : Type) (k : ℤ) (l : List α) :
    (1 ≤ k → k.toNat ≤ l.length →
        windows k l =
          .ok ((List.range (l.length - k.toNat + 1)).map
            (fun i => (l.drop i).take k.toNat))) ∧
      (1 ≤ k → l.length < k.toNat → windows k l = .ok [l]) ∧
      (k ≤ 0 → windows k l = .error ⟨"Invalid window length"⟩) := by
  refine ⟨fun h1 h2 => ?_, fun h1 h2 => ?_, fun h0 => ?_⟩
  · rw [windows, if_neg (by omega)]
    rw [windowsGo_full k.toNat (by omega) l [] false (by simp; omega)
      (by simpa using h2)]
    simp
  · rw [windows, if_neg (by omega)]
    rw [windowsGo_short k.toNat l [] (by simpa using h2)]
    simp
  · rw [windows, if_pos h0]

/-- C8 witness: the theorem applied at `k = 2` over `[0,1,2]` (three
windows case: `[[0,1],[1,2]]`), at `k = 5` over `[0,1,2]` (short case) and
at `k = 0` (error case). -/
theorem windows_char_witness :
    windows 2 [(0 : ℤ), 1, 2] =
        .ok ((List.range ([(0 : ℤ), 1, 2].length - (2 : ℤ).toNat + 1)).map
          (fun i => ([(0 : ℤ), 1, 2].drop i).take (2 : ℤ).toNat)) ∧
      windows 2 [(0 : ℤ), 1, 2] = .ok [[0, 1], [1, 2]] ∧
      windows 5 [(0 : ℤ), 1, 2] = .ok [[0, 1, 2]] ∧
      windows 0 [(0 : ℤ), 1, 2] = .error ⟨"Invalid window length"⟩ :=
  ⟨(windows_char ℤ 2 [0, 1, 2]).1 (by decide) (by decide), by rfl,
    (windows_char ℤ 5 [0, 1, 2]).2.1 (by decide) (by decide),
    (windows_char ℤ 0 [0, 1, 2]).2.2 (by decide)⟩

/-- C2 (code bug evaluation).  `skipWhile` on an empty source: the eagerly
pulled `iter.next().value` is `undefined`; with a predicate that fails on it
(e.g. `() => false`) the `while` loop exits at once and that `undefined` is
yielded.  The observable stream is `[undefined]` — one element — not the
empty stream the claim requires. -/
theorem skipWhile_empty_yields_undefined :
    skipWhile (fun _ _ => false) 1 ([] : List ℤ) = some [none] ∧
      some [(none : Option ℤ)] ≠ some ([] : List (Option ℤ)) :=
  ⟨rfl, by decide⟩

theorem minGo_posInf (getKey : α → JNum) :
    ∀ (l : List α) (best : Option α), (∀ x ∈ l, getKey x = .posInf) →
      minGo getKey .posInf best l = best := by
  intro l
  induction l with
  | nil => intro best _; rfl
  | cons x xs ih =>
    intro best hall
    have hx : getKey x = .posInf := hall x (by simp)
    simp only [minGo, hx]
    rw [if_neg (by decide)]
    exact ih best (fun y hy => hall y (by simp [hy]))

theorem maxGo_negInf (getKey : α → JNum) :
    ∀ (l : List α) (best : Option α), (∀ x ∈ l, getKey x = .negInf) →
      maxGo getKey .negInf best l = best := by
  intro l
  induction l with
  | nil => intro best _; rfl
  | cons x xs ih =>
    intro best hall
    have hx : getKey x = .negInf := hall x (by simp)
    simp only [maxGo, hx]
    rw [if_neg (by decide)]
    exact ih best (fun y hy => hall y (by simp [hy]))

/-- C10.  `min(getKey)` returns the not-found indicator (`undefined`) not
only on the empty sequence but on every non-empty sequence whose keys are
all `Infinity`, because `key < minKey` is strict against the `Infinity`
sentinel; symmetrically `max(getKey)` returns `undefined` on every
non-empty sequence whose keys are all `-Infinity`. -/
theorem min_max_infinity_sentinel (α : Type) (getKey : α → JNum) (l : List α) :
    (l ≠ [] → (∀ x ∈ l, getKey x = .posInf) → min getKey l = none) ∧
      (l ≠ [] → (∀ x ∈ l, getKey x = .negInf) → max getKey l = none) ∧
      min getKey ([] : List α) = none ∧ max getKey ([] : List α) = none :=
  ⟨fun _ hall => minGo_posInf getKey l none hall,
    fun _ hall => maxGo_negInf getKey l none hall, rfl, rfl⟩

/-- C10 witness: the theorem applied to the one-element sequence whose key
is `Infinity` (for `min`) and to the one whose key is `-Infinity`
(for `max`). -/
theorem min_max_infinity_sentinel_witness :
    min (fun _ : Unit => JNum.posInf) [()] = none ∧
      max (fun _ : Unit => JNum.negInf) [()] = none :=
  ⟨(min_max_infinity_sentinel Unit (fun _ => .posInf) [()]).1 (by decide)
      (by decide),
    (min_max_infinity_sentinel Unit (fun _ => .negInf) [()]).2.1 (by decide)
      (by decide)⟩

/-- C4.  Every adapter in the claim's list — map, filter, skip, take,
chain, zip, cycle, stretch, flatten, chunks, windows, nest (both forms),
unique, inspect, slice, step, accumulate, enumerate (and also skipWhile) —
returns a fresh `ZiltIterator` (`retIsRecv = false`) and leaves the
receiver's producer stream unchanged (`recv = s`), whether or not the call
throws.  `takeWhile` is the sole exception: it returns the receiver itself
(`retIsRecv = true`) after mutating its producer in place to the takeWhile
stream; the final conjunct shows at a concrete input that the mutated
producer really differs from the original. -/
theorem adapters_return_new_takeWhile_mutates (α β γ : Type) [Inhabited α]
    [DecidableEq α] :
    (∀ (f : α → ℕ → β) (s : List α),
        (map_method f s).recv = s ∧ (map_method f s).retIsRecv = false) ∧
      (∀ (p : α → ℕ → Bool) (s : List α),
        (filter_method p s).recv = s ∧ (filter_method p s).retIsRecv = false) ∧
      (∀ (n : ℤ) (s : List α),
        (skip_method n s).recv = s ∧ (skip_method n s).retIsRecv = false) ∧
      (∀ (n : ℤ) (s : List α),
        (take_method n s).recv = s ∧ (take_method n s).retIsRecv = false) ∧
      (∀ (s : List α) (its : List (List α)),
        (chain_method s its).recv = s ∧ (chain_method s its).retIsRecv = false) ∧
      (∀ (s : List α) (its : List (List α)),
        (zip_method s its).recv = s ∧ (zip_method s its).retIsRecv = false) ∧
      (∀ (n : ℤ) (s : List α),
        (cycle_method n s).recv = s ∧ (cycle_method n s).retIsRecv = false) ∧
      (∀ (n : ℤ) (s : List α),
        (stretch_method n s).recv = s ∧ (stretch_method n s).retIsRecv = false) ∧
      (∀ (d : ℤ) (s : List (JVal α)),
        (flatten_method d s).recv = s ∧ (flatten_method d s).retIsRecv = false) ∧
      (∀ (k : ℤ) (s : List α),
        (chunks_method k s).recv = s ∧ (chunks_method k s).retIsRecv = false) ∧
      (∀ (k : ℤ) (s : List α),
        (windows_method k s).recv = s ∧ (windows_method k s).retIsRecv = false) ∧
      (∀ (s : List α) (it : List β),
        (nest_method s it).recv = s ∧ (nest_method s it).retIsRecv = false) ∧
      (∀ (s : List α) (a b : ℤ),
        (nestRange_method s a b).recv = s ∧
          (nestRange_method s a b).retIsRecv = false) ∧
      (∀ s : List α,
        (unique_method s).recv = s ∧ (unique_method s).retIsRecv = false) ∧
      (∀ (f : α → β) (s : List α),
        (inspect_method f s).recv = s ∧ (inspect_method f s).retIsRecv = false) ∧
      (∀ (a b : ℤ) (s : List α),
        (slice_method a b s).recv = s ∧ (slice_method a b s).retIsRecv = false) ∧
      (∀ (n : ℤ) (s : List α),
        (step_method n s).recv = s ∧ (step_method n s).retIsRecv = false) ∧
      (∀ (f : JS γ → JS γ → JS γ) (i : JS γ) (s : List (JS γ)),
        (accumulate_method f i s).recv = s ∧
          (accumulate_method f i s).retIsRecv = false) ∧
      (∀ s : List α,
        (enumerate_method s).recv = s ∧ (enumerate_method s).retIsRecv = false) ∧
      (∀ (p : Option α → ℕ → Bool) (fuel : ℕ) (s : List α),
        (skipWhile_method p fuel s).recv = s ∧
          (skipWhile_method p fuel s).retIsRecv = false) ∧
      (∀ (p : Option α → ℕ → Bool) (fuel : ℕ) (s : List α),
        (takeWhile_method p fuel s).retIsRecv = true ∧
          (takeWhile_method p fuel s).recv = takeWhileStream p fuel s) ∧
      (takeWhile_method (fun v _ => decide (v = some (1 : ℤ))) 5 [1, 2]).recv ≠
        some ([1, 2].map some) := by
  refine ⟨fun f s => ⟨rfl, rfl⟩, fun p s => ⟨rfl, rfl⟩, fun n s => ⟨rfl, rfl⟩,
    fun n s => ⟨rfl, rfl⟩, fun s its => ⟨rfl, rfl⟩, fun s its => ⟨rfl, rfl⟩,
    fun n s => ⟨rfl, rfl⟩, fun n s => ⟨rfl, rfl⟩, fun d s => ⟨rfl, rfl⟩,
    fun k s => ⟨rfl, rfl⟩, fun k s => ⟨rfl, rfl⟩, fun s it => ⟨rfl, rfl⟩,
    fun s a b => ⟨rfl, rfl⟩, fun s => ⟨rfl, rfl⟩, fun f s => ⟨rfl, rfl⟩,
    fun a b s => ⟨rfl, rfl⟩, fun n s => ⟨rfl, rfl⟩, fun f i s => ⟨rfl, rfl⟩,
    fun s => ⟨rfl, rfl⟩, fun p fuel s => ⟨rfl, rfl⟩,
    fun p fuel s => ⟨rfl, rfl⟩, by decide⟩

/-- C7 (code bug evaluation).  `take(0).count()` on the singleton source `[5]`
is `1`, not `min(0, 1) = 0`: `take(0)` yields the empty stream and `count()`
on an empty stream evaluates its fold callback once on `(0, undefined)`,
returning `1` because the default predicate holds of `undefined`. -/
theorem take_zero_count_is_one :
    take 0 [JS.val (5 : ℤ)] = .ok [] ∧
      countDefault ([] : List (JS ℤ)) = .ok (.num 1) ∧
      Min.min (0 : ℤ) 1 = 0 ∧ (1 : ℤ) ≠ 0 := by
  refine ⟨rfl, rfl, by decide, by decide⟩

end Zilt
